import Mathlib

/-!
Verification of the search-and-relevance-ranking module of an e-commerce
storefront.  The definitions below are a shallow embedding of the module
`lib/api/search.ts`: JavaScript strings are modelled as `List Char`,
JavaScript numbers as `ℚ`, the insertion-ordered `Set` as duplicate-free
list accumulation, the stable `Array.prototype.sort` as `List.insertionSort`,
and the `try`/`catch` around the catalog fetch as a function over
`Except String (List Product)`.
-/

set_option maxHeartbeats 1000000
set_option maxRecDepth 4000

/-- JavaScript strings modelled as lists of characters. -/
abbrev Str := List Char

/-- Character-wise case folding, modelling `String.prototype.toLowerCase`. -/
def lowerStr (s : Str) : Str := s.map Char.toLower

/-- Mathematical (spec-side) Levenshtein distance: unit-cost insertion,
deletion and substitution, in the classic head-recursion form. -/
def lev : Str → Str → Nat
  | [], ys => ys.length
  | _ :: xs, [] => xs.length + 1
  | x :: xs, y :: ys =>
      min (lev xs (y :: ys) + 1)
        (min (lev (x :: xs) ys + 1) (lev xs ys + (if x = y then 0 else 1)))

/-- Inner loop of the dynamic-programming table fill in `levenshteinDistance`
(source lines 35–44): given the previous row (passed as the suffix starting at
column `i - 1`, so its head is the diagonal entry and the head of its tail the
entry straight above) and the value `left` just written at column `i - 1` of
the current row, produce the remaining entries of the current row. -/
def levRest (c2 : Char) : Str → Nat → List Nat → List Nat
  | [], _, _ => []
  | _ :: _, _, [] => []
  | c1 :: cs, left, diag :: rest =>
      let v := min (left + 1) (min (rest.headD 0 + 1) (diag + (if c1 = c2 then 0 else 1)))
      v :: levRest c2 cs v rest

/-- One full row of the DP table for the next character `c2` of `str2`.  The
source pre-initialises column 0 of row `j` to `j`; computing it as
`prev.headD 0 + 1` yields the same value since the previous row starts with
`j - 1`. -/
def levNextRow (str1 : Str) (c2 : Char) (prev : List Nat) : List Nat :=
  (prev.headD 0 + 1) :: levRest c2 str1 (prev.headD 0 + 1) prev

/-- Embedding of `levenshteinDistance` (source lines 22–47): row 0 is
`[0, 1, …, len str1]`, each character of `str2` produces the next row, and the
answer is `matrix[str2.length][str1.length]`, the last entry of the final
row. -/
def levenshteinDistance (str1 str2 : Str) : Nat :=
  (str2.foldl (fun row c2 => levNextRow str1 c2 row) (List.range (str1.length + 1))).getLastD 0

/-- Embedding of `fuzzyMatch` (source lines 5–20): case-fold both strings;
a substring hit returns 1 exactly (note `"x".includes("")` is `true` in
JavaScript, and likewise `[] <:+: l` always holds); otherwise convert the DP
edit distance to `max 0 (1 - distance / maxLength)` where `maxLength` is taken
over the lengths of the original strings. -/
def fuzzyMatch (text query : Str) : ℚ :=
  let textLower := lowerStr text
  let queryLower := lowerStr query
  if queryLower <:+: textLower then 1
  else
    max 0 (1 - (levenshteinDistance textLower queryLower : ℚ) /
      ((max text.length query.length : Nat) : ℚ))

/-- The shipped synonym dictionary (source lines 50–57). -/
def synonyms : List (Str × List Str) :=
  [(("phone").toList, [("mobile").toList, ("smartphone").toList, ("cell").toList,
      ("device").toList]),
   (("laptop").toList, [("computer").toList, ("notebook").toList, ("pc").toList]),
   (("shirt").toList, [("top").toList, ("blouse").toList, ("tee").toList]),
   (("shoes").toList, [("footwear").toList, ("sneakers").toList, ("boots").toList]),
   (("bag").toList, [("purse").toList, ("handbag").toList, ("backpack").toList]),
   (("watch").toList, [("timepiece").toList, ("clock").toList])]

/-- Splitting on runs of whitespace, modelling `query.split(/\s+/)`: a leading
whitespace run yields an initial empty token and a trailing run a final empty
token, exactly as in JavaScript.  `cur` is the current token (reversed) and
`prevWS` records whether the previous character belonged to a whitespace
run. -/
def splitWSAux : Str → Str → Bool → List Str
  | [], cur, _ => [cur.reverse]
  | c :: cs, cur, prevWS =>
      if c.isWhitespace then
        if prevWS then splitWSAux cs [] true
        else cur.reverse :: splitWSAux cs [] true
      else splitWSAux cs (c :: cur) false

/-- JavaScript `split(/\s+/)` on a string. -/
def splitWS (s : Str) : List Str := splitWSAux s [] false

/-- Does `word` (already lower-case) match the start of `s` case-insensitively? -/
def lowerPrefixMatches (word s : Str) : Bool :=
  (s.take word.length).map Char.toLower == word

/-- Fuel-indexed scan for `replaceCI`; the fuel is the length of the scanned
string, and every step consumes at least one character. -/
def replaceCIAux : Nat → Str → Str → Str → Str
  | 0, _, _, s => s
  | _ + 1, _, _, [] => []
  | fuel + 1, word, syn, c :: cs =>
      if (!word.isEmpty) && lowerPrefixMatches word (c :: cs) then
        syn ++ replaceCIAux fuel word syn (cs.drop (word.length - 1))
      else c :: replaceCIAux fuel word syn cs

/-- Case-insensitive global replacement of every (leftmost, non-overlapping)
occurrence of `word` in `s` by `syn`, modelling
`s.replace(new RegExp(word, "gi"), syn)` for tokens free of regex
metacharacters (every key and synonym of the shipped dictionary is).  The
tokens handed to it by the expander are lower-case, being produced by
`toLowerCase().split`. -/
def replaceCI (s word syn : Str) : Str := replaceCIAux s.length word syn s

/-- Insertion-ordered duplicate-free accumulation: the observable behaviour of
`Set.prototype.add` followed by iteration in insertion order. -/
def addUnique {α : Type} [DecidableEq α] (s : List α) (x : α) : List α :=
  if x ∈ s then s else s ++ [x]

/-- Deduplication keeping first occurrences, modelling `[...new Set(l)]`. -/
def dedupKeepFirst {α : Type} [DecidableEq α] (l : List α) : List α :=
  l.foldl addUnique []

/-- Inner body of the expander's double loop (source lines 63–74): for one
word of the query and one dictionary entry, push the rewritten variants. -/
def pushSynonymVariants (query word : Str) (entry : Str × List Str) (acc : List Str) :
    List Str :=
  if word = entry.1 ∨ word ∈ entry.2 then
    (entry.1 :: entry.2).foldl
      (fun acc2 syn => if syn ≠ word then acc2 ++ [replaceCI query word syn] else acc2) acc
  else acc

/-- Embedding of `expandQueryWithSynonyms` (source lines 59–77). -/
def expandQueryWithSynonyms (query : Str) : List Str :=
  let words := splitWS (lowerStr query)
  let expandedQueries :=
    words.foldl (fun acc word => synonyms.foldl (fun acc2 e => pushSynonymVariants query word e acc2) acc)
      [query]
  dedupKeepFirst expandedQueries

/-- The fields of a product record that the search module reads. -/
structure Product where
  id : Str
  name : Str
  description : Str
  tags : List Str
  category : Str
deriving DecidableEq

/-- Relevance total for one expanded query (source lines 90–103):
name ×3, description ×2, best tag ×2 (0 when there are no tags), category ×1. -/
def scoreForQuery (p : Product) (q : Str) : ℚ :=
  let nameScore := fuzzyMatch p.name q * 3
  let descScore := fuzzyMatch p.description q * 2
  let tagScore := (p.tags.foldl (fun acc tag => max acc (fuzzyMatch tag q)) 0) * 2
  let categoryScore := fuzzyMatch p.category q * 1
  nameScore + descScore + tagScore + categoryScore

/-- Overall product score (source lines 88–105): running maximum, over the
expanded queries, of the per-variant total, starting from 0. -/
def productScore (p : Product) (queries : List Str) : ℚ :=
  queries.foldl (fun maxScore q => max maxScore (scoreForQuery p q)) 0

/-- The scored candidate list (source lines 87–108). -/
def scoredProducts (catalog : List Product) (query : Str) : List (Product × ℚ) :=
  catalog.map (fun p => (p, productScore p (expandQueryWithSynonyms query)))

/-- The comparator `(a, b) => b.score - a.score` orders `a` before `b` exactly
when `b.score ≤ a.score` fails to strictly exceed; as a sorting relation it is
the total preorder `b.2 ≤ a.2`. -/
def scoreDescOrder (a b : Product × ℚ) : Prop := b.2 ≤ a.2

instance : DecidableRel scoreDescOrder := fun a b =>
  inferInstanceAs (Decidable (b.2 ≤ a.2))

instance : IsTotal (Product × ℚ) scoreDescOrder := ⟨fun a b => le_total b.2 a.2⟩

instance : IsTrans (Product × ℚ) scoreDescOrder :=
  ⟨fun _ _ _ hab hbc => le_trans hbc hab⟩

/-- The filter/sort/limit tail of the orchestrator (source lines 110–115):
keep scores strictly above 3/10, sort stably by descending score
(`Array.prototype.sort` is stable, which `List.insertionSort` realises),
project the products and keep the first 20. -/
def searchPipeline (catalog : List Product) (query : Str) : List Product :=
  ((List.insertionSort scoreDescOrder
      ((scoredProducts catalog query).filter (fun x => decide ((3 : ℚ) / 10 < x.2)))).map
    Prod.fst).take 20

/-- JavaScript `!query.trim()`: true exactly when every character is
whitespace (including the empty string). -/
def isBlankQuery (q : Str) : Bool := q.all Char.isWhitespace

/-- Embedding of `searchProducts` (source lines 79–120).  The catalog fetch is
passed in as an `Except` value; the `catch` block logs and returns `[]`, so a
failed fetch yields `Except.ok []`. -/
def searchProducts (fetchResult : Except String (List Product)) (query : Str) :
    Except String (List Product) :=
  if isBlankQuery query then Except.ok []
  else
    match fetchResult with
    | Except.ok allProducts => Except.ok (searchPipeline allProducts query)
    | Except.error _ => Except.ok []

/-- Per-product step of the suggestion scan (source lines 130–147): name, each
tag, then category, added to the insertion-ordered set when the similarity to
the raw query exceeds 1/2. -/
def suggestionsForProduct (query : Str) (acc : List Str) (p : Product) : List Str :=
  let acc1 := if (1 : ℚ) / 2 < fuzzyMatch p.name query then addUnique acc p.name else acc
  let acc2 := p.tags.foldl
    (fun a tag => if (1 : ℚ) / 2 < fuzzyMatch tag query then addUnique a tag else a) acc1
  if (1 : ℚ) / 2 < fuzzyMatch p.category query then addUnique acc2 p.category else acc2

/-- The suggestion list built from a fetched catalog (source lines 126–157):
catalog scan, then the synonym variants differing from the query, then
`slice(0, 5)`. -/
def suggestionsPipeline (allProducts : List Product) (query : Str) : List Str :=
  let fromCatalog := allProducts.foldl (suggestionsForProduct query) []
  let withExpansions := (expandQueryWithSynonyms query).foldl
    (fun a eq2 => if eq2 ≠ query then addUnique a eq2 else a) fromCatalog
  withExpansions.take 5

/-- Embedding of `getSearchSuggestions` (source lines 122–162); as with
`searchProducts`, the `catch` block turns a failed fetch into `Except.ok []`. -/
def getSearchSuggestions (fetchResult : Except String (List Product)) (query : Str) :
    Except String (List Str) :=
  if isBlankQuery query ∨ query.length < 2 then Except.ok []
  else
    match fetchResult with
    | Except.ok allProducts => Except.ok (suggestionsPipeline allProducts query)
    | Except.error _ => Except.ok []

/-- Spec-side maximum of a list of rationals, taking 0 for the empty list. -/
def listMaxQ (l : List ℚ) : ℚ := l.foldr max 0

/-- Spec-side per-variant relevance formula, written exactly as the spec
states it: `3·sim(name) + 2·sim(description) + 2·max_over_tags + 1·sim(category)`,
the tag term being 0 when there are no tags. -/
def specVariantScore (p : Product) (q : Str) : ℚ :=
  3 * fuzzyMatch p.name q + 2 * fuzzyMatch p.description q +
    2 * listMaxQ (p.tags.map (fun tag => fuzzyMatch tag q)) + 1 * fuzzyMatch p.category q

/-- A small concrete product used to instantiate theorems with hypotheses. -/
def sampleProduct : Product :=
  { id := ("1").toList
    name := ("Wireless Bluetooth Headphones").toList
    description := ("High-quality wireless headphones with noise cancellation").toList
    tags := [("electronics").toList, ("audio").toList, ("wireless").toList]
    category := ("electronics").toList }

/-- A second concrete product, with no tags. -/
def sampleProduct2 : Product :=
  { id := ("2").toList
    name := ("Organic Cotton T-Shirt").toList
    description := ("Comfortable organic cotton t-shirt").toList
    tags := []
    category := ("clothing").toList }

/-- A small concrete catalog. -/
def sampleCatalog : List Product := [sampleProduct, sampleProduct2]

/-! Correctness of the dynamic-programming edit distance: `levenshteinDistance`
computes the mathematical Levenshtein distance `lev`. -/

theorem lev_nil_right (xs : Str) : lev xs [] = xs.length := by
  cases xs <;> simp [lev]

/-- Transposing a 3-by-3 grid of values does not change their minimum. -/
theorem min_transpose (x1 x2 x3 x4 x5 x6 x7 x8 x9 : Nat) :
    min (min x1 (min x2 x3)) (min (min x4 (min x5 x6)) (min x7 (min x8 x9))) =
    min (min x1 (min x4 x7)) (min (min x2 (min x5 x8)) (min x3 (min x6 x9))) := by
  simp [min_comm, min_left_comm, min_assoc]

/-- The recurrence of `lev` on last characters: appending one character to each
argument satisfies exactly the deletion/insertion/substitution minimum that the
DP table fill uses. -/
theorem lev_snoc (a b : Char) :
    ∀ (n : Nat) (xs ys : Str), xs.length + ys.length ≤ n →
      lev (xs ++ [a]) (ys ++ [b]) =
        min (lev xs (ys ++ [b]) + 1)
          (min (lev (xs ++ [a]) ys + 1) (lev xs ys + (if a = b then 0 else 1))) := by
  intro n
  induction n with
  | zero =>
      intro xs ys h
      match xs, ys with
      | [], [] => simp [lev]
      | [], _ :: _ => simp at h
      | _ :: _, _ => simp at h
  | succ n ih =>
      intro xs ys h
      match xs, ys with
      | [], [] => simp [lev]
      | [], y :: ys =>
          have ihy := ih [] ys (by simp at h ⊢; omega)
          simp only [List.nil_append, List.cons_append] at ihy ⊢
          simp only [lev, List.length_cons, List.length_append, List.length_nil,
            List.length_singleton] at ihy ⊢
          rw [ihy]
          clear ihy ih h
          generalize lev [a] ys = A
          generalize (if a = y then 0 else 1 : Nat) = p
          generalize (if a = b then 0 else 1 : Nat) = q
          omega
      | x :: xs, [] =>
          have ihx := ih xs [] (by simp at h ⊢; omega)
          simp only [List.nil_append, List.cons_append] at ihx ⊢
          simp only [lev, lev_nil_right, List.length_cons, List.length_append,
            List.length_nil, List.length_singleton] at ihx ⊢
          rw [ihx]
          clear ihx ih h
          generalize lev xs [b] = B
          generalize (if x = b then 0 else 1 : Nat) = p
          generalize (if a = b then 0 else 1 : Nat) = q
          omega
      | x :: xs, y :: ys =>
          have h1 := ih xs (y :: ys) (by simp at h ⊢; omega)
          have h2 := ih (x :: xs) ys (by simp at h ⊢; omega)
          have h3 := ih xs ys (by simp at h ⊢; omega)
          simp only [List.cons_append] at h1 h2 h3 ⊢
          simp only [lev] at h1 h2 h3 ⊢
          rw [h1, h2, h3]
          clear h1 h2 h3 ih h
          generalize lev xs (y :: (ys ++ [b])) = a1
          generalize lev (xs ++ [a]) (y :: ys) = a2
          generalize lev xs (y :: ys) = a3
          generalize lev (x :: xs) (ys ++ [b]) = a4
          generalize lev (x :: (xs ++ [a])) ys = a5
          generalize lev (x :: xs) ys = a6
          generalize lev xs (ys ++ [b]) = a7
          generalize lev (xs ++ [a]) ys = a8
          generalize lev xs ys = a9
          generalize (if x = y then 0 else 1 : Nat) = p
          generalize (if a = b then 0 else 1 : Nat) = q
          simp only [← Nat.add_min_add_right]
          have t := min_transpose (a1 + 1 + 1) (a2 + 1 + 1) (a3 + q + 1) (a4 + 1 + 1)
            (a5 + 1 + 1) (a6 + q + 1) (a7 + 1 + p) (a8 + 1 + p) (a9 + q + p)
          rw [t]
          congr 1
          · omega
          congr 1
          · omega
          · omega

/-- Spec-side description of a suffix of one DP row: the entries
`lev (u ++ take k cs) w` for `k = 0, …, length cs`. -/
def rowFrom (w : Str) : Str → Str → List Nat
  | u, [] => [lev u w]
  | u, c :: cs => lev u w :: rowFrom w (u ++ [c]) cs

theorem rowFrom_cons_tail (w u cs : Str) :
    rowFrom w u cs = lev u w :: (rowFrom w u cs).tail := by
  cases cs <;> rfl

theorem rowFrom_head (w u cs : Str) (d : Nat) : (rowFrom w u cs).headD d = lev u w := by
  cases cs <;> rfl

/-- The inner loop advances one whole row: fed with the row for `w` it produces
(the tail of) the row for `w ++ [c2]`. -/
theorem levRest_spec (c2 : Char) (w : Str) :
    ∀ (cs u : Str),
      levRest c2 cs (lev u (w ++ [c2])) (rowFrom w u cs) = (rowFrom (w ++ [c2]) u cs).tail := by
  intro cs
  induction cs with
  | nil => intro u; rfl
  | cons c1 cs ih =>
      intro u
      have hv : min (lev u (w ++ [c2]) + 1)
          (min (lev (u ++ [c1]) w + 1) (lev u w + (if c1 = c2 then 0 else 1))) =
          lev (u ++ [c1]) (w ++ [c2]) :=
        (lev_snoc c1 c2 (u.length + w.length) u w le_rfl).symm
      simp only [rowFrom, levRest, rowFrom_head, List.tail_cons]
      rw [hv, ih (u ++ [c1])]
      exact (rowFrom_cons_tail (w ++ [c2]) (u ++ [c1]) cs).symm

theorem levNextRow_spec (str1 : Str) (c2 : Char) (w : Str) :
    levNextRow str1 c2 (rowFrom w [] str1) = rowFrom (w ++ [c2]) [] str1 := by
  unfold levNextRow
  rw [rowFrom_head]
  have h1 : lev [] w + 1 = lev [] (w ++ [c2]) := by simp [lev]
  rw [h1, levRest_spec c2 w str1 []]
  exact (rowFrom_cons_tail (w ++ [c2]) [] str1).symm

theorem foldl_levNextRow (str1 : Str) :
    ∀ (ys w : Str),
      List.foldl (fun row c2 => levNextRow str1 c2 row) (rowFrom w [] str1) ys =
        rowFrom (w ++ ys) [] str1 := by
  intro ys
  induction ys with
  | nil => intro w; simp
  | cons c ys ih =>
      intro w
      simp only [List.foldl_cons]
      rw [levNextRow_spec, ih (w ++ [c])]
      simp

theorem rowFrom_nil : ∀ (cs u : Str), rowFrom [] u cs = List.range' u.length (cs.length + 1) := by
  intro cs
  induction cs with
  | nil => intro u; simp [rowFrom, lev_nil_right]
  | cons c cs ih =>
      intro u
      simp only [rowFrom, lev_nil_right]
      rw [ih (u ++ [c])]
      simp [List.range'_succ]

theorem rowFrom_getLast (w : Str) :
    ∀ (cs u : Str) (d : Nat), (rowFrom w u cs).getLastD d = lev (u ++ cs) w := by
  intro cs
  induction cs with
  | nil => intro u d; simp [rowFrom]
  | cons c cs ih =>
      intro u d
      simp only [rowFrom, List.getLastD_cons]
      rw [ih (u ++ [c])]
      simp

/-- The DP table fill of the source computes the Levenshtein distance. -/
theorem levenshteinDistance_eq_lev (s1 s2 : Str) : levenshteinDistance s1 s2 = lev s1 s2 := by
  unfold levenshteinDistance
  have h0 : List.range (s1.length + 1) = rowFrom [] [] s1 := by
    rw [rowFrom_nil s1 []]
    simp [List.range_eq_range']
  rw [h0, foldl_levNextRow s1 s2 [], rowFrom_getLast]
  simp

/-! Folding with `max`: bridging the source's running-maximum `foldl` and the
spec-side maximum `listMaxQ`. -/

theorem foldr_max_comm (l : List ℚ) : ∀ a b : ℚ, l.foldr max (max a b) = max b (l.foldr max a) := by
  induction l with
  | nil => intro a b; exact max_comm a b
  | cons x l ih =>
      intro a b
      simp only [List.foldr_cons]
      rw [ih a b, max_left_comm]

theorem foldl_max_eq_foldr_max (l : List ℚ) : ∀ a : ℚ, l.foldl max a = l.foldr max a := by
  induction l with
  | nil => intro a; rfl
  | cons x l ih =>
      intro a
      simp only [List.foldl_cons, List.foldr_cons]
      rw [ih (max a x), foldr_max_comm l a x]

theorem scoreForQuery_eq_spec (p : Product) (q : Str) :
    scoreForQuery p q = specVariantScore p q := by
  simp only [scoreForQuery, specVariantScore, listMaxQ]
  rw [← List.foldl_map (fun tag => fuzzyMatch tag q) max p.tags 0,
    foldl_max_eq_foldr_max]
  ring

/-- C1: for every product and query variant `q` the relevance total is
`3·similarity(name, q) + 2·similarity(description, q) + 2·max_over_tags + 1·similarity(category, q)`
(the tag term being 0 when there are no tags), and the overall score of a
product is the maximum of this total over all variants produced by the synonym
expander, not their sum. -/
theorem relevance_score_formula (p : Product) (query : Str) :
    (∀ q ∈ expandQueryWithSynonyms query, scoreForQuery p q = specVariantScore p q) ∧
    productScore p (expandQueryWithSynonyms query) =
      listMaxQ ((expandQueryWithSynonyms query).map (specVariantScore p)) := by
  constructor
  · intro q _
    exact scoreForQuery_eq_spec p q
  · have hfun : (fun q => scoreForQuery p q) = fun q => specVariantScore p q := by
      funext q
      exact scoreForQuery_eq_spec p q
    unfold productScore listMaxQ
    rw [show (fun maxScore q => max maxScore (scoreForQuery p q)) =
        (fun maxScore q => max maxScore (specVariantScore p q)) by
      funext m q
      rw [scoreForQuery_eq_spec]]
    rw [← List.foldl_map (fun q => specVariantScore p q) max (expandQueryWithSynonyms query) 0,
      foldl_max_eq_foldr_max]

/-- Witness for C1 at a concrete product, query and variant. -/
theorem relevance_score_formula_witness :
    ("phone").toList ∈ expandQueryWithSynonyms (("phone").toList) ∧
      scoreForQuery sampleProduct (("phone").toList) =
        specVariantScore sampleProduct (("phone").toList) :=
  ⟨by decide, (relevance_score_formula sampleProduct (("phone").toList)).1 _ (by decide)⟩

/-- C2: `fuzzyMatch` always lands in `[0, 1]`; it is exactly 1 when the
case-folded text contains the case-folded query as a substring, and otherwise
equals `max 0 (1 - d / max(len text, len query))` where `d` is the Levenshtein
edit distance (unit-cost insertion, deletion, substitution) between the
case-folded strings. -/
theorem fuzzyMatch_bounds_and_formula (text query : Str) :
    (0 ≤ fuzzyMatch text query ∧ fuzzyMatch text query ≤ 1) ∧
    (lowerStr query <:+: lowerStr text → fuzzyMatch text query = 1) ∧
    (¬ lowerStr query <:+: lowerStr text →
      fuzzyMatch text query =
        max 0 (1 - (lev (lowerStr text) (lowerStr query) : ℚ) /
          ((max text.length query.length : Nat) : ℚ))) := by
  by_cases hsub : lowerStr query <:+: lowerStr text
  · have h1 : fuzzyMatch text query = 1 := by simp [fuzzyMatch, hsub]
    exact ⟨⟨by rw [h1]; norm_num, h1.le⟩, fun _ => h1, fun hc => absurd hsub hc⟩
  · have h1 : fuzzyMatch text query =
        max 0 (1 - (lev (lowerStr text) (lowerStr query) : ℚ) /
          ((max text.length query.length : Nat) : ℚ)) := by
      simp [fuzzyMatch, hsub, levenshteinDistance_eq_lev]
    refine ⟨⟨?_, ?_⟩, fun hs => absurd hs hsub, fun _ => h1⟩
    · rw [h1]
      exact le_max_left 0 _
    · rw [h1]
      refine max_le (by norm_num) ?_
      have hd : (0 : ℚ) ≤ (lev (lowerStr text) (lowerStr query) : ℚ) /
          ((max text.length query.length : Nat) : ℚ) :=
        div_nonneg (Nat.cast_nonneg _) (Nat.cast_nonneg _)
      linarith

/-- Witness for C2 on the non-substring branch, at `"phone"`/`"phones"`. -/
theorem fuzzyMatch_bounds_and_formula_witness :
    ¬ lowerStr (("phones").toList) <:+: lowerStr (("phone").toList) ∧
      fuzzyMatch (("phone").toList) (("phones").toList) =
        max 0 (1 - (lev (lowerStr (("phone").toList)) (lowerStr (("phones").toList)) : ℚ) /
          ((max (("phone").toList).length (("phones").toList).length : Nat) : ℚ)) :=
  ⟨by decide, (fuzzyMatch_bounds_and_formula (("phone").toList) (("phones").toList)).2.2 (by decide)⟩

/-- C5 counterexample: the claim says `similarity(s, "") = 0` for non-empty
`s`, but the empty query is a substring of every string (`"a".includes("")`
is `true`), so the substring branch fires and the code returns 1. -/
theorem fuzzyMatch_empty_query_counterexample :
    fuzzyMatch (("a").toList) [] = 1 ∧ ¬ fuzzyMatch (("a").toList) [] = 0 := by
  constructor
  · decide
  · decide

/-- C5 amended: for every string `s` (empty or not), `similarity(s, "") = 1`,
because the substring test precedes the distance formula and the empty
case-folded query is a substring of every case-folded text. -/
theorem fuzzyMatch_empty_query (s : Str) : fuzzyMatch s [] = 1 := by
  simp [fuzzyMatch, lowerStr]

/-! Properties of the insertion-ordered set accumulation. -/

theorem mem_addUnique {α : Type} [DecidableEq α] (s : List α) (x y : α) :
    y ∈ addUnique s x ↔ y = x ∨ y ∈ s := by
  unfold addUnique
  split_ifs with hx
  · constructor
    · exact fun h => Or.inr h
    · rintro (rfl | h)
      · exact hx
      · exact h
  · simp [or_comm]

theorem addUnique_nodup {α : Type} [DecidableEq α] (s : List α) (x : α) (h : s.Nodup) :
    (addUnique s x).Nodup := by
  unfold addUnique
  split_ifs with hx
  · exact h
  · simp [List.nodup_append, h, hx]

theorem foldl_addUnique_nodup {α : Type} [DecidableEq α] (l : List α) :
    ∀ acc : List α, acc.Nodup → (l.foldl addUnique acc).Nodup := by
  induction l with
  | nil => intro acc h; exact h
  | cons x l ih =>
      intro acc h
      exact ih (addUnique acc x) (addUnique_nodup acc x h)

theorem mem_foldl_addUnique {α : Type} [DecidableEq α] (l : List α) :
    ∀ (acc : List α) (y : α), y ∈ acc → y ∈ l.foldl addUnique acc := by
  induction l with
  | nil => intro acc y h; exact h
  | cons x l ih =>
      intro acc y h
      exact ih (addUnique acc x) y ((mem_addUnique acc x y).2 (Or.inr h))

/-- Generic fact: a fold whose every step only appends to its accumulator
only appends to its starting accumulator. -/
theorem foldl_extends {α β : Type} (g : List α → β → List α)
    (hg : ∀ acc b, ∃ ext, g acc b = acc ++ ext) (l : List β) :
    ∀ acc : List α, ∃ ext, l.foldl g acc = acc ++ ext := by
  induction l with
  | nil => intro acc; exact ⟨[], by simp⟩
  | cons b l ih =>
      intro acc
      obtain ⟨e1, he1⟩ := hg acc b
      obtain ⟨e2, he2⟩ := ih (g acc b)
      exact ⟨e1 ++ e2, by rw [List.foldl_cons, he2, he1, List.append_assoc]⟩

theorem pushSynonymVariants_extends (q w : Str) (e : Str × List Str) :
    ∀ acc, ∃ ext, pushSynonymVariants q w e acc = acc ++ ext := by
  intro acc
  unfold pushSynonymVariants
  split_ifs with hw
  · exact foldl_extends _
      (fun acc2 syn => by
        split_ifs with hs
        · exact ⟨[replaceCI q w syn], rfl⟩
        · exact ⟨[], by simp⟩) (e.1 :: e.2) acc
  · exact ⟨[], by simp⟩

/-- C6: the expander's output is deduplicated and contains the original query
verbatim, exactly once. -/
theorem expandQuery_contains_query_once (query : Str) :
    (expandQueryWithSynonyms query).Nodup ∧
    query ∈ expandQueryWithSynonyms query ∧
    (expandQueryWithSynonyms query).countP (fun v => decide (v = query)) = 1 := by
  have hext : ∃ ext, (splitWS (lowerStr query)).foldl
      (fun acc word => synonyms.foldl (fun acc2 e => pushSynonymVariants query word e acc2) acc)
      [query] = [query] ++ ext := by
    refine foldl_extends _ (fun acc word => ?_) (splitWS (lowerStr query)) [query]
    exact foldl_extends _ (fun acc2 e => pushSynonymVariants_extends query word e acc2) synonyms acc
  obtain ⟨ext, hx⟩ := hext
  have hform : expandQueryWithSynonyms query = (query :: ext).foldl addUnique [] := by
    unfold expandQueryWithSynonyms dedupKeepFirst
    simp only [hx]
    rfl
  have hstart : (query :: ext).foldl addUnique [] = ext.foldl addUnique [query] := by
    simp [addUnique]
  have hnodup : (expandQueryWithSynonyms query).Nodup := by
    rw [hform, hstart]
    exact foldl_addUnique_nodup ext [query] (List.nodup_singleton query)
  have hmem : query ∈ expandQueryWithSynonyms query := by
    rw [hform, hstart]
    exact mem_foldl_addUnique ext [query] query (List.mem_singleton_self query)
  exact ⟨hnodup, hmem, List.count_eq_one_of_mem hnodup hmem⟩

/-- C9 counterexample: on the claim's own example query, no variant of
`"topic pc"` contains `"tolaptop"` — the letters `p`, `c` are not contiguous
in `"topic"`, so the global regex replacement of the token `"pc"` leaves
`"topic"` untouched.  The full expansion is listed. -/
theorem expand_topic_pc_counterexample :
    expandQueryWithSynonyms (("topic pc").toList) =
      [("topic pc").toList, ("topic laptop").toList, ("topic computer").toList,
        ("topic notebook").toList] ∧
    (expandQueryWithSynonyms (("topic pc").toList)).all
      (fun v => !(decide (("tolaptop").toList <:+: v))) = true := by
  exact ⟨by decide, by decide⟩

/-- C9 amended: the mis-replacement is real for queries where the token also
occurs inside an unrelated word: expanding `"pcb pc"` rewrites the `"pc"`
inside `"pcb"` as well, producing the variant `"laptopb laptop"` in which the
unrelated word `"pcb"` has been altered. -/
theorem expand_substring_misreplacement :
    expandQueryWithSynonyms (("pcb pc").toList) =
      [("pcb pc").toList, ("laptopb laptop").toList, ("computerb computer").toList,
        ("notebookb notebook").toList] ∧
    ("laptopb laptop").toList ∈ expandQueryWithSynonyms (("pcb pc").toList) := by
  exact ⟨by decide, by decide⟩

/-- C4 (documenting the defect): when the catalog fetch fails, the orchestrator
catches the error and returns `Except.ok []` — an empty, successful result
indistinguishable from zero matches — for every query, instead of propagating
the failure as the spec requires. -/
theorem searchProducts_swallows_fetch_failure (e : String) (q : Str) :
    searchProducts (Except.error e) q = Except.ok [] := by
  unfold searchProducts
  split_ifs with h
  · rfl
  · rfl

/-- C7: a query that is empty or all-whitespace short-circuits both operations
to a successful empty answer (`total = 0` being the length of the empty result
list) for every fetch outcome — the catalog is never consulted, and no error is
raised. -/
theorem blank_query_short_circuit (fetchResult : Except String (List Product)) (query : Str)
    (hq : isBlankQuery query = true) :
    searchProducts fetchResult query = Except.ok [] ∧
    getSearchSuggestions fetchResult query = Except.ok [] := by
  constructor
  · unfold searchProducts
    rw [if_pos hq]
  · unfold getSearchSuggestions
    rw [if_pos (Or.inl hq)]

/-- Witness for C7 at the three-space query, with a failing fetch to show the
catalog is not consulted. -/
theorem blank_query_short_circuit_witness :
    isBlankQuery (("   ").toList) = true ∧
      (searchProducts (Except.error ("catalog down")) (("   ").toList) = Except.ok [] ∧
        getSearchSuggestions (Except.error ("catalog down")) (("   ").toList) = Except.ok []) :=
  ⟨by decide,
    blank_query_short_circuit (Except.error ("catalog down")) (("   ").toList) (by decide)⟩

/-! Deduplication and cap of the suggestion list. -/

theorem foldl_preserves_nodup {α β : Type} [DecidableEq α] (f : List α → β → List α)
    (hf : ∀ acc b, acc.Nodup → (f acc b).Nodup) (l : List β) :
    ∀ acc, acc.Nodup → (l.foldl f acc).Nodup := by
  induction l with
  | nil => intro acc h; exact h
  | cons b l ih =>
      intro acc h
      exact ih (f acc b) (hf acc b h)

theorem suggestionsForProduct_nodup (q : Str) (acc : List Str) (p : Product) (h : acc.Nodup) :
    (suggestionsForProduct q acc p).Nodup := by
  simp only [suggestionsForProduct]
  have h1 : (if (1 : ℚ) / 2 < fuzzyMatch p.name q then addUnique acc p.name else acc).Nodup := by
    split_ifs with hn
    · exact addUnique_nodup _ _ h
    · exact h
  generalize hA : (if (1 : ℚ) / 2 < fuzzyMatch p.name q then addUnique acc p.name else acc) = acc1
    at h1 ⊢
  have h2 : (p.tags.foldl
      (fun a tag => if (1 : ℚ) / 2 < fuzzyMatch tag q then addUnique a tag else a) acc1).Nodup :=
    foldl_preserves_nodup _
      (fun a tag hn => by
        split_ifs with ht
        · exact addUnique_nodup _ _ hn
        · exact hn) p.tags acc1 h1
  split_ifs with hc
  · exact addUnique_nodup _ _ h2
  · exact h2

theorem suggestionsPipeline_nodup_le (ps : List Product) (q : Str) :
    (suggestionsPipeline ps q).Nodup ∧ (suggestionsPipeline ps q).length ≤ 5 := by
  have h1 : (ps.foldl (suggestionsForProduct q) []).Nodup :=
    foldl_preserves_nodup _ (fun acc p hn => suggestionsForProduct_nodup q acc p hn) ps []
      List.nodup_nil
  have h2 : ((expandQueryWithSynonyms q).foldl
      (fun a eq2 => if eq2 ≠ q then addUnique a eq2 else a)
      (ps.foldl (suggestionsForProduct q) [])).Nodup :=
    foldl_preserves_nodup _
      (fun a eq2 hn => by
        split_ifs with he
        · exact addUnique_nodup _ _ hn
        · exact hn) (expandQueryWithSynonyms q) _ h1
  constructor
  · exact List.Nodup.sublist (List.take_sublist 5 _) h2
  · exact List.length_take_le 5 _

/-- C8: queries shorter than two characters yield no suggestions, and every
suggestion list the operation returns is deduplicated with at most five
entries. -/
theorem suggestions_short_query_dedup_cap (fetchResult : Except String (List Product))
    (query : Str) :
    (query.length < 2 → getSearchSuggestions fetchResult query = Except.ok []) ∧
    (∀ l, getSearchSuggestions fetchResult query = Except.ok l → l.Nodup ∧ l.length ≤ 5) := by
  constructor
  · intro hlen
    unfold getSearchSuggestions
    rw [if_pos (Or.inr hlen)]
  · intro l hl
    unfold getSearchSuggestions at hl
    split_ifs at hl with hcond
    · simp only [Except.ok.injEq] at hl
      subst hl
      simp
    · cases fetchResult with
      | ok ps =>
          simp only [Except.ok.injEq] at hl
          subst hl
          exact suggestionsPipeline_nodup_le ps query
      | error e =>
          simp only [Except.ok.injEq] at hl
          subst hl
          simp

/-- Witness for C8 at a one-character query. -/
theorem suggestions_short_query_dedup_cap_witness :
    (("a").toList).length < 2 ∧
      getSearchSuggestions (Except.ok [sampleProduct]) (("a").toList) = Except.ok [] :=
  ⟨by decide,
    (suggestions_short_query_dedup_cap (Except.ok [sampleProduct]) (("a").toList)).1 (by decide)⟩

/-! Stability of the relevance sort: filtering the sorted candidates down to
one score value recovers their original (catalog) order. -/

theorem filter_orderedInsert_score (v : ℚ) (x : Product × ℚ) :
    ∀ M : List (Product × ℚ),
      (List.orderedInsert scoreDescOrder x M).filter (fun y => decide (y.2 = v)) =
        if x.2 = v then x :: M.filter (fun y => decide (y.2 = v))
        else M.filter (fun y => decide (y.2 = v)) := by
  intro M
  induction M with
  | nil =>
      by_cases hx : x.2 = v
      · simp [List.orderedInsert, List.filter_cons, hx]
      · simp [List.orderedInsert, List.filter_cons, hx]
  | cons b M ih =>
      by_cases h1 : scoreDescOrder x b
      · by_cases hx : x.2 = v
        · simp [List.orderedInsert, h1, List.filter_cons, hx]
        · simp [List.orderedInsert, h1, List.filter_cons, hx]
      · have hlt : x.2 < b.2 := lt_of_not_le h1
        by_cases hx : x.2 = v
        · have hb : ¬ b.2 = v := by
            intro hbv
            rw [hx] at hlt
            rw [hbv] at hlt
            exact lt_irrefl v hlt
          simp [List.orderedInsert, h1, List.filter_cons, hb, ih, hx]
        · by_cases hb : b.2 = v
          · simp [List.orderedInsert, h1, List.filter_cons, hb, ih, hx]
          · simp [List.orderedInsert, h1, List.filter_cons, hb, ih, hx]

theorem filter_insertionSort_score (v : ℚ) :
    ∀ l : List (Product × ℚ),
      (List.insertionSort scoreDescOrder l).filter (fun y => decide (y.2 = v)) =
        l.filter (fun y => decide (y.2 = v)) := by
  intro l
  induction l with
  | nil => rfl
  | cons x l ih =>
      rw [List.insertionSort, filter_orderedInsert_score]
      by_cases hx : x.2 = v
      · simp [List.filter_cons, hx, ih]
      · simp [List.filter_cons, hx, ih]

/-- C3: on a non-blank query the orchestrator returns, in order, the prefix of
at most 20 of a list `L` that consists of exactly the scored candidates whose
relevance exceeds 3/10 (`L.Perm …`), arranged in descending score order
(`L.Pairwise …`), with candidates of equal score kept in catalog order (the
filter equation: restricting `L` to any single score value yields those
candidates exactly as the catalog orders them). -/
theorem searchProducts_threshold_sort_limit (catalog : List Product) (query : Str)
    (hq : isBlankQuery query = false) :
    ∃ L : List (Product × ℚ),
      searchProducts (Except.ok catalog) query = Except.ok ((L.map Prod.fst).take 20) ∧
      L.Perm ((scoredProducts catalog query).filter (fun x => decide ((3 : ℚ) / 10 < x.2))) ∧
      L.Pairwise (fun a b => b.2 ≤ a.2) ∧
      (∀ v : ℚ, L.filter (fun x => decide (x.2 = v)) =
        ((scoredProducts catalog query).filter (fun x => decide ((3 : ℚ) / 10 < x.2))).filter
          (fun x => decide (x.2 = v))) := by
  refine ⟨List.insertionSort scoreDescOrder
      ((scoredProducts catalog query).filter (fun x => decide ((3 : ℚ) / 10 < x.2))),
    ?_, ?_, ?_, ?_⟩
  · unfold searchProducts
    rw [if_neg (by simp [hq])]
    rfl
  · exact List.perm_insertionSort scoreDescOrder _
  · exact List.sorted_insertionSort scoreDescOrder _
  · intro v
    exact filter_insertionSort_score v _

/-- Witness for C3 at a concrete catalog and query. -/
theorem searchProducts_threshold_sort_limit_witness :
    isBlankQuery (("wireless").toList) = false ∧
      (∃ L : List (Product × ℚ),
        searchProducts (Except.ok sampleCatalog) (("wireless").toList) =
          Except.ok ((L.map Prod.fst).take 20) ∧
        L.Perm ((scoredProducts sampleCatalog (("wireless").toList)).filter
          (fun x => decide ((3 : ℚ) / 10 < x.2))) ∧
        L.Pairwise (fun a b => b.2 ≤ a.2) ∧
        (∀ v : ℚ, L.filter (fun x => decide (x.2 = v)) =
          ((scoredProducts sampleCatalog (("wireless").toList)).filter
            (fun x => decide ((3 : ℚ) / 10 < x.2))).filter (fun x => decide (x.2 = v)))) :=
  ⟨by decide,
    searchProducts_threshold_sort_limit sampleCatalog (("wireless").toList) (by decide)⟩

theorem searchPipeline_helper_subset_nodup (catalog : List Product) (query : Str) :
    (∀ p ∈ searchPipeline catalog query, p ∈ catalog) ∧
    (catalog.Nodup → (searchPipeline catalog query).Nodup) := by
  unfold searchPipeline
  set qs := expandQueryWithSynonyms query with hqs
  set filtered := (scoredProducts catalog query).filter (fun x => decide ((3 : ℚ) / 10 < x.2))
    with hfiltered
  have hmem_f : ∀ x ∈ filtered, x ∈ scoredProducts catalog query := by
    intro x hx
    exact List.mem_of_mem_filter hx
  have hshape : ∀ x ∈ scoredProducts catalog query,
      x.1 ∈ catalog ∧ x = (x.1, productScore x.1 qs) := by
    intro x hx
    unfold scoredProducts at hx
    obtain ⟨p0, hp0, rfl⟩ := List.mem_map.1 hx
    exact ⟨hp0, rfl⟩
  constructor
  · intro p hp
    have h1 := List.take_subset 20 _ hp
    obtain ⟨x, hx, rfl⟩ := List.mem_map.1 h1
    have hx2 : x ∈ filtered := (List.mem_insertionSort scoreDescOrder).1 hx
    exact (hshape x (hmem_f x hx2)).1
  · intro hcat
    have h1 : (scoredProducts catalog query).Nodup := by
      unfold scoredProducts
      exact hcat.map (fun p1 p2 h => congrArg Prod.fst h)
    have h2 : filtered.Nodup := h1.filter _
    have h3 : (List.insertionSort scoreDescOrder filtered).Nodup :=
      (List.perm_insertionSort scoreDescOrder filtered).nodup_iff.2 h2
    have h4 : ((List.insertionSort scoreDescOrder filtered).map Prod.fst).Nodup := by
      refine h3.map_on ?_
      intro x hx y hy hxy
      have hxs := hshape x (hmem_f x ((List.mem_insertionSort scoreDescOrder).1 hx))
      have hys := hshape y (hmem_f y ((List.mem_insertionSort scoreDescOrder).1 hy))
      rw [hxs.2, hys.2, hxy]
    exact h4.sublist (List.take_sublist 20 _)

/-- C10: whatever list the orchestrator returns for a fetched catalog consists
only of members of that catalog, and — as long as the catalog snapshot itself
has no duplicate records — no product appears in it twice: the pipeline only
selects and reorders catalog entries, never fabricating or duplicating one. -/
theorem searchProducts_subset_nodup (catalog : List Product) (query : Str)
    (l : List Product) (h : searchProducts (Except.ok catalog) query = Except.ok l) :
    (∀ p ∈ l, p ∈ catalog) ∧ (catalog.Nodup → l.Nodup) := by
  unfold searchProducts at h
  split_ifs at h with hb
  · simp only [Except.ok.injEq] at h
    subst h
    exact ⟨fun p hp => absurd hp (List.not_mem_nil p), fun _ => List.nodup_nil⟩
  · simp only [Except.ok.injEq] at h
    subst h
    exact searchPipeline_helper_subset_nodup catalog query

/-- Witness for C10 at a concrete catalog and query. -/
theorem searchProducts_subset_nodup_witness :
    searchProducts (Except.ok sampleCatalog) (("laptop").toList) =
        Except.ok (searchPipeline sampleCatalog (("laptop").toList)) ∧
      sampleCatalog.Nodup ∧ (searchPipeline sampleCatalog (("laptop").toList)).Nodup :=
  ⟨rfl, by decide,
    (searchProducts_subset_nodup sampleCatalog (("laptop").toList)
      (searchPipeline sampleCatalog (("laptop").toList)) rfl).2 (by decide)⟩
